import Mathlib

/-!
Verification development for the QuantDreamCpp Monte-Carlo risk engine.

The C++ sources are embedded shallowly over `ℚ`:
* matrices of returns become `List (List ℚ)` (row major);
* `computePortfolioRiskMeasures` (ERCOptimizer.cpp) becomes
  `QuantDream.computePortfolioRiskMeasures`;
* the ERC multiplicative update (ERCOptimizer.cpp, `optimize`) becomes
  `QuantDream.ercUpdate`;
* the three bootstrap fill loops of engine.cpp become `vanillaFill`,
  `fillFixed` and `fillStationary`, with the pseudo-random draws supplied
  as explicit oracle arguments, and the sampling distributions the code
  builds become explicit probability mass functions;
* the engine state mutated by `setWeights` / `runSimulation` becomes the
  structure `QuantDream.Engine`, with errors as an explicit `Err` type
  standing for the thrown `std::runtime_error`s.
-/

namespace QuantDream

abbrev Row := List ℚ
abbrev Mat := List Row

/-- Dot product of two rows, as `Eigen`'s `.dot` on equal-length vectors. -/
def dotQ (a b : Row) : ℚ := (List.zipWith (· * ·) a b).sum

/-- Per-asset compounded loss of one simulated path:
`losses_j = 1 - prod_t (1 + r_tj)`
(ERCOptimizer.cpp line 169, `1 - (sim.array() + 1).colwise().prod()`). -/
def assetLosses (sim : Mat) (nAssets : ℕ) : Row :=
  (List.range nAssets).map (fun j => 1 - (sim.map (fun r => 1 + r.getD j 0)).prod)

/-- One row of the risk-measure matrix: the `N` asset losses followed by the
portfolio loss `losses ⬝ weights` (ERCOptimizer.cpp lines 169-181). -/
def riskRow (w : Row) (sim : Mat) : Row :=
  let losses := assetLosses sim w.length
  losses ++ [dotQ losses w]

/-- The `M × (N+1)` matrix `riskMeasureMatrix` of ERCOptimizer.cpp. -/
def riskMeasureMatrix (sims : List Mat) (w : Row) : List Row :=
  sims.map (riskRow w)

/-- The vector `portfolioLosses` (column `nAssets` of the risk matrix,
ERCOptimizer.cpp lines 189-195). -/
def portfolioLosses (sims : List Mat) (w : Row) : Row :=
  (riskMeasureMatrix sims w).map (fun r => r.getD w.length 0)

/-- The comparator of the index sort (ERCOptimizer.cpp lines 198-202):
compare scenario indices by their portfolio loss. -/
def plLe (pl : Row) (a b : ℕ) : Bool := decide (pl.getD a 0 ≤ pl.getD b 0)

/-- Boolean `≤` on `ℚ`, used to talk about the ascending order of losses. -/
def qle (a b : ℚ) : Bool := decide (a ≤ b)

/-- The sorted index permutation `indices` of ERCOptimizer.cpp: scenario
indices ordered by ascending portfolio loss. -/
def sortedIndices (pl : Row) : List ℕ :=
  (List.range pl.length).mergeSort (plLe pl)

/-- `quantileIndex = floor((1 - alpha/100) * M)`, clamped above by `M - 1`
(ERCOptimizer.cpp lines 204-206). -/
def quantileIndex (alpha M : ℕ) : ℕ :=
  min (Int.toNat ⌊(1 - (alpha : ℚ) / 100) * (M : ℚ)⌋) (M - 1)

inductive RiskMeasure
  | VaR
  | ES
deriving DecidableEq

/-- Embedding of `computePortfolioRiskMeasures` (ERCOptimizer.cpp lines
147-239): build the risk matrix, sort scenario indices by portfolio loss,
then either pick the quantile row (VaR) or average the tail rows (ES),
scaling the asset columns by the weights. -/
def computePortfolioRiskMeasures (sims : List Mat) (w : Row) (alpha : ℕ)
    (measure : RiskMeasure) : Row :=
  let M := sims.length
  let N := w.length
  let rmm := riskMeasureMatrix sims w
  let pl := rmm.map (fun r => r.getD N 0)
  let idx := sortedIndices pl
  let q := quantileIndex alpha M
  match measure with
  | .VaR =>
    (List.range (N + 1)).map (fun j =>
      let v := (rmm.getD (idx.getD q 0) []).getD j 0
      if j < N then v * w.getD j 0 else v)
  | .ES =>
    (List.range (N + 1)).map (fun j =>
      let s := ((idx.drop q).map (fun i => (rmm.getD i []).getD j 0)).sum
      let v := s / ((M - q : ℕ) : ℚ)
      if j < N then v * w.getD j 0 else v)

/-- The ES result as the specification words it: the mean of the rows of the
scenarios ranked `q`-th through `(M-1)`-th in ascending portfolio-loss order,
after which each asset entry is multiplied by its weight and the portfolio
entry is left unscaled. -/
def esSpecResult (sims : List Mat) (w : Row) (alpha : ℕ) : Row :=
  let N := w.length
  let rmm := riskMeasureMatrix sims w
  let pl := rmm.map (fun r => r.getD N 0)
  let tailRows := ((sortedIndices pl).drop (quantileIndex alpha sims.length)).map
      (fun i => rmm.getD i [])
  let mean := (List.range (N + 1)).map
      (fun j => (tailRows.map (fun r => r.getD j 0)).sum / (tailRows.length : ℚ))
  (List.range (N + 1)).map
      (fun j => if j < N then w.getD j 0 * mean.getD j 0 else mean.getD j 0)

/-- The VaR result as the specification words it: the loss row of the
scenario at the quantile index of the ascending portfolio-loss order, asset
entries scaled by their weights, portfolio entry the raw loss. -/
def varSpecResult (sims : List Mat) (w : Row) (alpha : ℕ) : Row :=
  let N := w.length
  let rmm := riskMeasureMatrix sims w
  let pl := rmm.map (fun r => r.getD N 0)
  let row := rmm.getD ((sortedIndices pl).getD (quantileIndex alpha sims.length) 0) []
  (List.range (N + 1)).map
      (fun j => if j < N then w.getD j 0 * row.getD j 0 else row.getD j 0)

/-! ### ERC optimizer update (ERCOptimizer.cpp, `optimize`, lines 98-122) -/

/-- The uniform initial weights of the optimizer
(`std::vector<double> w(nAssets_, 1.0 / nAssets_)`, line 34). -/
def initialWeights (n : ℕ) : Row := List.replicate n (1 / (n : ℚ))

/-- The multiplicative proposal (lines 99-104):
`w_prop[i] = w[i] * (target / max(rc[i], eps_rc))`, clamped below at `0`. -/
def ercProposal (w rc : Row) (target eps_rc : ℚ) (n : ℕ) : Row :=
  (List.range n).map (fun i =>
    let x := w.getD i 0 * (target / max (rc.getD i 0) eps_rc)
    if x < 0 then 0 else x)

/-- Renormalization of the proposal (lines 106-112): divide by the sum, or
fall back to uniform weights when the sum is `≤ 0`. -/
def ercNormalizeProp (wp : Row) (n : ℕ) : Row :=
  if wp.sum ≤ 0 then List.replicate n (1 / (n : ℚ)) else wp.map (· / wp.sum)

/-- Damped blend (lines 114-116): `w[i] = (1-damping)*w[i] + damping*w_prop[i]`. -/
def ercBlend (w wp : Row) (damping : ℚ) (n : ℕ) : Row :=
  (List.range n).map (fun i =>
    (1 - damping) * w.getD i 0 + damping * wp.getD i 0)

/-- Final defensive renormalization (lines 118-122): divide by the sum
unless it is zero. -/
def ercRenormalize (w : Row) : Row :=
  if w.sum ≠ 0 then w.map (· / w.sum) else w

/-- One full weight update of a non-converged ERC iteration. -/
def ercUpdate (w rc : Row) (target eps_rc damping : ℚ) (n : ℕ) : Row :=
  ercRenormalize
    (ercBlend w (ercNormalizeProp (ercProposal w rc target eps_rc n) n) damping n)

/-- The ERC weight update as the specification words it: propose
`w_i' = w_i * (target / max(rc_i, eps_rc))` clamped below at `0`, renormalize
to sum `1` (uniform fallback when the sum is `≤ 0`), blend with damping, and
renormalize once more. -/
def ercUpdateSpec (w rc : Row) (target eps_rc damping : ℚ) (n : ℕ) : Row :=
  let wp := (List.range n).map (fun i =>
      max 0 (w.getD i 0 * (target / max (rc.getD i 0) eps_rc)))
  let wn := if wp.sum ≤ 0 then List.replicate n (1 / (n : ℚ))
            else wp.map (· / wp.sum)
  let b := (List.range n).map (fun i =>
      (1 - damping) * w.getD i 0 + damping * wn.getD i 0)
  b.map (· / b.sum)

/-! ### Engine state and errors (engine.cpp) -/

/-- The `std::runtime_error`s thrown by the engine, as a tagged type. -/
inductive Err
  | marketDataEmpty
  | categoryNotFound
  | emptyCategory
  | noCategorySelected
  | invalidWeightsSize
  | invalidWeightsNegative
  | invalidWeightsSum
  | noSimulationRun
  | unknownSimulationMethod
deriving DecidableEq

/-- The `SimulationMethod` selector. `unknown` stands for any value of the
int-backed C++ enum outside its three declared members, reaching the
`default:` branch of the `switch` in `runSimulation`. -/
inductive SimMethod
  | vanilla
  | lambdaBias
  | stationary
  | unknown
deriving DecidableEq

/-- The mutable state of `MonteCarloEngine` that the claims mention. -/
structure Engine where
  selectedDataReturns : Mat
  weightsVector : Row
  availableTickers : List String
  simulatedDataReturns : List Mat
  nSimulations : ℕ
  nSamples : ℕ
  blockSize : ℕ
  alpha : ℕ

/-- `MonteCarloEngine::setWeights` (engine.cpp lines 45-63): validate the
candidate vector and store it, or throw leaving the stored vector alone.
Returns the stored vector after the call together with the error, if any. -/
def setWeights (tickers : List String) (cur v : Row) : Row × Option Err :=
  if v.length ≠ tickers.length then (cur, some .invalidWeightsSize)
  else if v.any (fun x => decide (x < 0)) then (cur, some .invalidWeightsNegative)
  else if 1 / 1000000 < |v.sum - 1| then (cur, some .invalidWeightsSum)
  else (v, none)

/-! ### The three bootstrap fill loops (engine.cpp lines 151-325).
Pseudo-random draws are passed in as explicit oracles. -/

/-- The probability that the vanilla policy's
`uniform_int_distribution(0, T-1)` with `T = rows - blockSize`
(engine.cpp lines 158-160) draws start index `s`. -/
def vanillaStartProb (rows b s : ℕ) : ℚ :=
  if s < rows - b then 1 / ((rows - b : ℕ) : ℚ) else 0

/-- The copy loop of `runSingleSimulationVanilla` (engine.cpp lines 167-176):
block `row` starts at the drawn index `draws row`; cell `row*b + block` gets
source row `draws row + block`; writes at or past `nSamples` are skipped. -/
def vanillaFill (src : Mat) (b nSamples : ℕ) (draws : ℕ → ℕ) : Mat :=
  (List.range (nSamples / b + 1)).flatMap (fun row =>
    (List.range b).filterMap (fun block =>
      if row * b + block < nSamples then some (src.getD (draws row + block) [])
      else none))

/-- `runSingleSimulationVanilla` (engine.cpp lines 151-179) with the start
draws as an oracle. -/
def runSingleSimulationVanilla (st : Engine) (b : ℕ) (draws : ℕ → ℕ) :
    Except Err Mat :=
  if st.selectedDataReturns = [] then .error .noCategorySelected
  else .ok (vanillaFill st.selectedDataReturns b st.nSamples draws)

/-- One-step portfolio return at row `t` (`selectedDataReturns_.row(t).dot(ew)`,
engine.cpp line 215). -/
def portReturnAt (src : Mat) (w : Row) (t : ℕ) : ℚ := dotQ (src.getD t []) w

/-- The badness-weighted sampling score (engine.cpp lines 212-226):
`score[t] = lambda * max(0, -port_r)^2 + (1 - lambda)`. -/
def lambdaScore (src : Mat) (w : Row) (lam : ℚ) (t : ℕ) : ℚ :=
  lam * (max 0 (-portReturnAt src w t)) ^ 2 + (1 - lam)

/-- Number of admissible block starts, `T = rows - blockSize + 1`
(engine.cpp line 191). -/
def lambdaNumStarts (src : Mat) (b : ℕ) : ℕ := src.length - b + 1

/-- The normalizer `Z = sum of scores` (engine.cpp line 229). -/
def lambdaZ (src : Mat) (w : Row) (lam : ℚ) (b : ℕ) : ℚ :=
  ((List.range (lambdaNumStarts src b)).map (lambdaScore src w lam)).sum

/-- The probability `prob[t] = score[t] / Z` handed to
`discrete_distribution` (engine.cpp lines 230-234). -/
def lambdaProb (src : Mat) (w : Row) (lam : ℚ) (b t : ℕ) : ℚ :=
  lambdaScore src w lam t / lambdaZ src w lam b

/-- The fill loop of `runSingleSimulation` (engine.cpp lines 241-251):
per drawn start, copy up to `b` source rows, stopping at `need` rows. -/
def fillFixed (src : Mat) (b : ℕ) : ℕ → List ℕ → Mat
  | _, [] => []
  | need, idx :: rest =>
    if need = 0 then []
    else
      let t := min b need
      (List.range t).map (fun k => src.getD (idx + k) []) ++
        fillFixed src b (need - t) rest

/-- `runSingleSimulation` (badness-weighted, engine.cpp lines 181-254) with
the start draws as an oracle list. -/
def runSingleSimulation (st : Engine) (b : ℕ) (lam : ℚ) (draws : List ℕ) :
    Except Err Mat :=
  if st.selectedDataReturns = [] then .error .noCategorySelected
  else .ok (fillFixed st.selectedDataReturns b st.nSamples draws)

/-- The fill loop of `runSingleSimulationStationary` (engine.cpp lines
311-322): per draw, block length `L = min (geom+1) nSamples`, rows accessed
circularly modulo the source row count. -/
def fillStationary (src : Mat) (nSamples : ℕ) : ℕ → List (ℕ × ℕ) → Mat
  | _, [] => []
  | need, (idx0, g) :: rest =>
    if need = 0 then []
    else
      let L := min (g + 1) nSamples
      let t := min L need
      (List.range t).map (fun k => src.getD ((idx0 + k) % src.length) []) ++
        fillStationary src nSamples (need - t) rest

/-- `runSingleSimulationStationary` (engine.cpp lines 256-325) with the
(start, geometric) draws as an oracle list. -/
def runSingleSimulationStationary (st : Engine) (bMean : ℕ) (theta : ℚ)
    (draws : List (ℕ × ℕ)) : Except Err Mat :=
  if st.selectedDataReturns = [] then .error .noCategorySelected
  else .ok (fillStationary st.selectedDataReturns st.nSamples st.nSamples draws)

/-- The `switch (method)` dispatch inside `runSimulation` (engine.cpp lines
336-355), including the positive-`param1` block-size override. -/
def singleSimDispatch (st : Engine) (method : SimMethod) (p1 p2 : ℚ)
    (vd : ℕ → ℕ) (ld : List ℕ) (sd : List (ℕ × ℕ)) : Except Err Mat :=
  match method with
  | .vanilla =>
    runSingleSimulationVanilla st (if 0 < p1 then Int.toNat ⌊p1⌋ else st.blockSize) vd
  | .lambdaBias => runSingleSimulation st st.blockSize p1 ld
  | .stationary =>
    runSingleSimulationStationary st (if 0 < p1 then Int.toNat ⌊p1⌋ else st.blockSize)
      p2 sd
  | .unknown => .error .unknownSimulationMethod

/-- The simulation loop of `runSimulation`: generate one matrix per index,
pushing onto the (already cleared) scenario list; a throw leaves the list
as filled so far. -/
def runSimulationLoop (st0 : Engine) (method : SimMethod) (p1 p2 : ℚ)
    (vd : ℕ → ℕ → ℕ) (ld : ℕ → List ℕ) (sd : ℕ → List (ℕ × ℕ)) :
    List ℕ → List Mat → Engine × Option Err
  | [], acc => ({ st0 with simulatedDataReturns := acc.reverse }, none)
  | i :: rest, acc =>
    match singleSimDispatch st0 method p1 p2 (vd i) (ld i) (sd i) with
    | .ok m => runSimulationLoop st0 method p1 p2 vd ld sd rest (m :: acc)
    | .error e => ({ st0 with simulatedDataReturns := acc.reverse }, some e)

/-- `MonteCarloEngine::runSimulation` (engine.cpp lines 327-359): clear the
stored scenario set, then run `nSimulations` single simulations. -/
def runSimulation (st : Engine) (method : SimMethod) (p1 p2 : ℚ)
    (vd : ℕ → ℕ → ℕ) (ld : ℕ → List ℕ) (sd : ℕ → List (ℕ × ℕ)) :
    Engine × Option Err :=
  runSimulationLoop { st with simulatedDataReturns := [] } method p1 p2 vd ld sd
    (List.range st.nSimulations) []

/-! ### Helper lemmas about lists -/

theorem getD_range_map (l : List ℚ) (d : ℚ) :
    (List.range l.length).map (fun i => l.getD i d) = l := by
  apply List.ext_getElem
  · simp
  · intro n h₁ h₂
    simp only [List.getElem_map, List.getElem_range]
    exact l.getD_eq_getElem d h₂

theorem sum_map_div (l : List ℚ) (c : ℚ) :
    (l.map (· / c)).sum = l.sum / c := by
  induction l with
  | nil => simp
  | cons a t ih => simp [ih, add_div]

theorem plLe_trans (pl : Row) : ∀ a b c, plLe pl a b = true → plLe pl b c = true →
    plLe pl a c = true := by
  intro a b c hab hbc
  simp only [plLe, decide_eq_true_eq] at *
  exact le_trans hab hbc

theorem plLe_total (pl : Row) : ∀ a b, (plLe pl a b || plLe pl b a) = true := by
  intro a b
  simp only [plLe, Bool.or_eq_true, decide_eq_true_eq]
  exact le_total _ _

/-- `sortedIndices pl` is a permutation of `0, …, pl.length - 1`. -/
theorem sortedIndices_perm (pl : Row) :
    (sortedIndices pl).Perm (List.range pl.length) :=
  List.mergeSort_perm _ _

theorem sortedIndices_length (pl : Row) : (sortedIndices pl).length = pl.length := by
  simpa using (sortedIndices_perm pl).length_eq

/-- Along `sortedIndices pl` the portfolio losses are ascending. -/
theorem sortedIndices_sorted (pl : Row) :
    List.Sorted (· ≤ ·) ((sortedIndices pl).map (fun i => pl.getD i 0)) := by
  rw [List.Sorted, List.pairwise_map]
  have h := @List.sorted_mergeSort _ (plLe pl) (plLe_trans pl) (plLe_total pl)
      (List.range pl.length)
  exact h.imp (fun hab => by simpa [plLe, decide_eq_true_eq] using hab)

/-- `mergeSort` with the `qle` comparator produces an ascending list. -/
theorem mergeSort_qle_sorted (l : Row) : List.Sorted (· ≤ ·) (l.mergeSort qle) := by
  have h := @List.sorted_mergeSort _ qle
      (fun a b c hab hbc => by
        simp only [qle, decide_eq_true_eq] at *; exact le_trans hab hbc)
      (fun a b => by
        simp only [qle, Bool.or_eq_true, decide_eq_true_eq]; exact le_total a b)
      l
  exact h.imp (fun hab => by simpa [qle, decide_eq_true_eq] using hab)

/-- Sorting an already ascending list leaves it unchanged. -/
theorem mergeSort_qle_eq_self {l : Row} (h : List.Sorted (· ≤ ·) l) :
    l.mergeSort qle = l :=
  List.eq_of_perm_of_sorted (List.mergeSort_perm l qle) (mergeSort_qle_sorted l) h

/-- Reading the portfolio losses along the sorted index permutation gives
exactly the ascending sort of the portfolio-loss vector. -/
theorem sortedIndices_map_getD (pl : Row) :
    (sortedIndices pl).map (fun i => pl.getD i 0) = pl.mergeSort qle := by
  have hperm : ((sortedIndices pl).map (fun i => pl.getD i 0)).Perm (pl.mergeSort qle) := by
    have h1 : ((sortedIndices pl).map (fun i => pl.getD i 0)).Perm
        ((List.range pl.length).map (fun i => pl.getD i 0)) :=
      (sortedIndices_perm pl).map _
    rw [getD_range_map] at h1
    exact h1.trans (List.mergeSort_perm pl qle).symm
  exact List.eq_of_perm_of_sorted hperm (sortedIndices_sorted pl)
    (mergeSort_qle_sorted pl)

/-- In the risk matrix, looking a row up and taking its portfolio column is
the same as indexing the portfolio-loss vector (both default to `0`). -/
theorem pl_getD (sims : List Mat) (w : Row) (i : ℕ) :
    (portfolioLosses sims w).getD i 0 =
      ((riskMeasureMatrix sims w).getD i []).getD w.length 0 := by
  show ((riskMeasureMatrix sims w).map (fun r => r.getD w.length 0)).getD i 0 = _
  by_cases h : i < (riskMeasureMatrix sims w).length
  · rw [List.getD_eq_getElem _ _ (by simpa using h), List.getElem_map,
      List.getD_eq_getElem _ _ h]
  · rw [List.getD_eq_default _ _ (by simpa using Nat.le_of_not_lt h),
      List.getD_eq_default _ _ (Nat.le_of_not_lt h)]
    rfl

/-- Indexing a mapped list inside its range. -/
theorem getD_map_of_lt {α β : Type} (f : α → β) (l : List α) (n : ℕ) (dα : α)
    (dβ : β) (h : n < l.length) :
    (l.map f).getD n dβ = f (l.getD n dα) := by
  rw [List.getD_eq_getElem _ _ (by simpa using h), List.getElem_map,
    List.getD_eq_getElem _ _ h]

/-- Indexing a map over `List.range` inside its range. -/
theorem getD_map_range (f : ℕ → ℚ) {n j : ℕ} (h : j < n) :
    ((List.range n).map f).getD j 0 = f j := by
  rw [List.getD_eq_getElem _ _ (by simpa using h), List.getElem_map,
    List.getElem_range]

theorem quantileIndex_le (alpha M : ℕ) : quantileIndex alpha M ≤ M - 1 :=
  min_le_right _ _

/-- The ES branch of `computePortfolioRiskMeasures` computes exactly the
specification's description of the ES result. -/
theorem es_code_eq_spec (sims : List Mat) (w : Row) (alpha : ℕ) :
    computePortfolioRiskMeasures sims w alpha .ES = esSpecResult sims w alpha := by
  simp only [computePortfolioRiskMeasures, esSpecResult]
  apply List.map_congr_left
  intro j hj
  rw [List.mem_range] at hj
  have hlenmean : j < ((List.range (w.length + 1)).map
      (fun j => ((((sortedIndices ((riskMeasureMatrix sims w).map
          (fun r => r.getD w.length 0))).drop
            (quantileIndex alpha sims.length)).map
          (fun i => riskMeasureMatrix sims w |>.getD i [])).map
            (fun r => r.getD j 0)).sum /
        ((((sortedIndices ((riskMeasureMatrix sims w).map
          (fun r => r.getD w.length 0))).drop
            (quantileIndex alpha sims.length)).map
          (fun i => riskMeasureMatrix sims w |>.getD i [])).length : ℚ))).length := by
    simpa using hj
  rw [List.getD_eq_getElem _ 0 hlenmean, List.getElem_map, List.getElem_range]
  rw [List.map_map]
  have hcomp : ((fun r => r.getD j 0) ∘ fun i => (riskMeasureMatrix sims w).getD i []) =
      fun i => ((riskMeasureMatrix sims w).getD i []).getD j 0 := rfl
  rw [hcomp]
  have hlen : (((sortedIndices ((riskMeasureMatrix sims w).map
      (fun r => r.getD w.length 0))).drop (quantileIndex alpha sims.length)).length : ℚ) =
      ((sims.length - quantileIndex alpha sims.length : ℕ) : ℚ) := by
    rw [List.length_drop, sortedIndices_length]
    simp [riskMeasureMatrix]
  rw [List.length_map, hlen]
  by_cases hjN : j < w.length
  · simp only [hjN, if_pos]
    ring
  · simp only [hjN, if_neg, not_false_iff]

/-- The VaR branch of `computePortfolioRiskMeasures` computes exactly the
specification's description of the VaR result. -/
theorem var_code_eq_spec (sims : List Mat) (w : Row) (alpha : ℕ) :
    computePortfolioRiskMeasures sims w alpha .VaR = varSpecResult sims w alpha := by
  simp only [computePortfolioRiskMeasures, varSpecResult]
  apply List.map_congr_left
  intro j hj
  by_cases hjN : j < w.length
  · simp only [hjN, if_pos]
    ring
  · simp only [hjN, if_neg, not_false_iff]

theorem portfolioLosses_length (sims : List Mat) (w : Row) :
    (portfolioLosses sims w).length = sims.length := by
  simp [portfolioLosses, riskMeasureMatrix]

/-- The portfolio entry of the VaR result is the portfolio loss of the
scenario sitting at the quantile index of the ascending order, i.e. the
`(q+1)`-st smallest portfolio loss. -/
theorem var_portfolio_entry (sims : List Mat) (w : Row) (alpha : ℕ)
    (hM : 1 ≤ sims.length) :
    (computePortfolioRiskMeasures sims w alpha .VaR).getD w.length 0 =
      ((portfolioLosses sims w).mergeSort qle).getD
        (quantileIndex alpha sims.length) 0 := by
  have hql : quantileIndex alpha sims.length < sims.length :=
    Nat.lt_of_le_of_lt (quantileIndex_le _ _) (Nat.sub_lt hM Nat.one_pos)
  have hq : quantileIndex alpha sims.length <
      (sortedIndices (portfolioLosses sims w)).length := by
    rw [sortedIndices_length, portfolioLosses_length]
    exact hql
  have hpl : (riskMeasureMatrix sims w).map (fun r => r.getD w.length 0) =
      portfolioLosses sims w := rfl
  rw [← sortedIndices_map_getD, getD_map_of_lt _ _ _ 0 _ hq, pl_getD]
  simp only [computePortfolioRiskMeasures, hpl]
  rw [getD_map_range _ (Nat.lt_succ_self _)]
  simp only [lt_irrefl, if_neg, not_false_iff]

/-- For `M` scenarios with `M ≥ 1` and a quantile index `q = M - 1`, the ES
portfolio entry is the single largest portfolio loss. -/
theorem es_portfolio_entry_last (sims : List Mat) (w : Row) (alpha : ℕ)
    (hM : 1 ≤ sims.length)
    (hq : quantileIndex alpha sims.length = sims.length - 1) :
    (computePortfolioRiskMeasures sims w alpha .ES).getD w.length 0 =
      ((portfolioLosses sims w).mergeSort qle).getD (sims.length - 1) 0 := by
  have hpl : (riskMeasureMatrix sims w).map (fun r => r.getD w.length 0) =
      portfolioLosses sims w := rfl
  have hslen : ((sortedIndices (portfolioLosses sims w)).map
      (fun i => (portfolioLosses sims w).getD i 0)).length = sims.length := by
    rw [List.length_map, sortedIndices_length, portfolioLosses_length]
  have hlt : sims.length - 1 < ((sortedIndices (portfolioLosses sims w)).map
      (fun i => (portfolioLosses sims w).getD i 0)).length := by
    rw [hslen]; exact Nat.sub_lt hM Nat.one_pos
  simp only [computePortfolioRiskMeasures, hpl]
  rw [getD_map_range _ (Nat.lt_succ_self _)]
  simp only [lt_irrefl, if_neg, not_false_iff]
  have hmapval : (fun i => ((riskMeasureMatrix sims w).getD i []).getD w.length 0) =
      (fun i => (portfolioLosses sims w).getD i 0) := by
    funext i
    rw [pl_getD]
  rw [hmapval, hq, List.map_drop]
  have hdrop : ((sortedIndices (portfolioLosses sims w)).map
        (fun i => (portfolioLosses sims w).getD i 0)).drop (sims.length - 1) =
      [((sortedIndices (portfolioLosses sims w)).map
        (fun i => (portfolioLosses sims w).getD i 0)).getD (sims.length - 1) 0] := by
    rw [List.getD_eq_getElem _ _ hlt]
    rw [List.drop_eq_getElem_cons hlt, List.drop_eq_nil_of_le]
    rw [hslen]
    omega
  rw [hdrop]
  have hden : ((sims.length - (sims.length - 1) : ℕ) : ℚ) = 1 := by
    have h1 : sims.length - (sims.length - 1) = 1 := by omega
    rw [h1]; norm_num
  rw [hden]
  rw [← sortedIndices_map_getD]
  simp

/-! ### Sum and sign helpers for the ERC update -/

theorem getD_nonneg {l : Row} (h : ∀ x ∈ l, 0 ≤ x) (i : ℕ) : 0 ≤ l.getD i 0 := by
  by_cases hi : i < l.length
  · rw [List.getD_eq_getElem _ _ hi]
    exact h _ (List.getElem_mem hi)
  · rw [List.getD_eq_default _ _ (Nat.le_of_not_lt hi)]

theorem sum_range_getD (l : Row) (n : ℕ) (h : l.length = n) :
    ((List.range n).map (fun i => l.getD i 0)).sum = l.sum := by
  subst h
  rw [getD_range_map]

theorem sum_blend (l : List ℕ) (c d : ℚ) (f g : ℕ → ℚ) :
    (l.map (fun i => c * f i + d * g i)).sum =
      c * (l.map f).sum + d * (l.map g).sum := by
  induction l with
  | nil => simp
  | cons a t ih =>
    simp only [List.map_cons, List.sum_cons, ih]
    ring

theorem ifneg_eq_max (x : ℚ) : (if x < 0 then 0 else x) = max 0 x := by
  rcases lt_or_le x 0 with h | h
  · rw [if_pos h, max_eq_left h.le]
  · rw [if_neg (not_lt.mpr h), max_eq_right h]

/-- The clamped multiplicative proposal, written with `max`. -/
theorem ercProposal_eq_max (w rc : Row) (target eps_rc : ℚ) (n : ℕ) :
    ercProposal w rc target eps_rc n =
      (List.range n).map (fun i =>
        max 0 (w.getD i 0 * (target / max (rc.getD i 0) eps_rc))) := by
  unfold ercProposal
  exact List.map_congr_left (fun i _ => ifneg_eq_max _)

theorem ercProposal_nonneg (w rc : Row) (target eps_rc : ℚ) (n : ℕ) :
    ∀ x ∈ ercProposal w rc target eps_rc n, 0 ≤ x := by
  rw [ercProposal_eq_max]
  intro x hx
  rw [List.mem_map] at hx
  obtain ⟨i, _, rfl⟩ := hx
  exact le_max_left _ _

theorem ercProposal_length (w rc : Row) (target eps_rc : ℚ) (n : ℕ) :
    (ercProposal w rc target eps_rc n).length = n := by
  unfold ercProposal
  simp

theorem ercNormalizeProp_length (wp : Row) (n : ℕ) (h : wp.length = n) :
    (ercNormalizeProp wp n).length = n := by
  unfold ercNormalizeProp
  split
  · simp
  · simpa using h

theorem ercNormalizeProp_sum (wp : Row) (n : ℕ) (hn : 1 ≤ n) :
    (ercNormalizeProp wp n).sum = 1 := by
  unfold ercNormalizeProp
  split
  · rw [List.sum_replicate, nsmul_eq_mul]
    rw [mul_one_div, div_self]
    have hne : n ≠ 0 := by omega
    exact_mod_cast hne
  · rename_i h
    rw [sum_map_div]
    exact div_self (ne_of_gt (lt_of_not_le h))

theorem ercNormalizeProp_nonneg (wp : Row) (n : ℕ) (hwp : ∀ x ∈ wp, 0 ≤ x) :
    ∀ x ∈ ercNormalizeProp wp n, 0 ≤ x := by
  unfold ercNormalizeProp
  split
  · intro x hx
    rw [List.eq_of_mem_replicate hx]
    positivity
  · rename_i h
    intro x hx
    rw [List.mem_map] at hx
    obtain ⟨y, hy, rfl⟩ := hx
    exact div_nonneg (hwp y hy) (le_of_lt (lt_of_not_le h))

theorem ercBlend_sum (w wn : Row) (damping : ℚ) (n : ℕ)
    (hlen : w.length = n) (hwn : wn.length = n)
    (hsumw : w.sum = 1) (hsumn : wn.sum = 1) :
    (ercBlend w wn damping n).sum = 1 := by
  unfold ercBlend
  have h := sum_blend (List.range n) (1 - damping) damping
    (fun i => w.getD i 0) (fun i => wn.getD i 0)
  rw [h, sum_range_getD w n hlen, sum_range_getD wn n hwn, hsumw, hsumn]
  ring

theorem ercBlend_nonneg (w wn : Row) (damping : ℚ) (n : ℕ)
    (hd0 : 0 ≤ damping) (hd1 : damping ≤ 1)
    (hw : ∀ x ∈ w, 0 ≤ x) (hwn : ∀ x ∈ wn, 0 ≤ x) :
    ∀ x ∈ ercBlend w wn damping n, 0 ≤ x := by
  unfold ercBlend
  intro x hx
  rw [List.mem_map] at hx
  obtain ⟨i, _, rfl⟩ := hx
  have h1 : 0 ≤ (1 - damping) * w.getD i 0 :=
    mul_nonneg (by linarith) (getD_nonneg hw i)
  have h2 : 0 ≤ damping * wn.getD i 0 :=
    mul_nonneg hd0 (getD_nonneg hwn i)
  linarith

theorem ercRenormalize_of_sum_one {b : Row} (h : b.sum = 1) :
    ercRenormalize b = b := by
  unfold ercRenormalize
  rw [if_pos (by rw [h]; norm_num)]
  rw [h]
  simp

/-- The full update of one non-converged iteration keeps weights
non-negative and summing to one. -/
theorem ercUpdate_nonneg_sum (w rc : Row) (target eps_rc damping : ℚ) (n : ℕ)
    (hlen : w.length = n) (hn : 1 ≤ n) (hw : ∀ x ∈ w, 0 ≤ x) (hsum : w.sum = 1)
    (hd0 : 0 ≤ damping) (hd1 : damping ≤ 1) :
    (∀ x ∈ ercUpdate w rc target eps_rc damping n, 0 ≤ x)
    ∧ (ercUpdate w rc target eps_rc damping n).sum = 1 := by
  unfold ercUpdate
  have hblendsum : (ercBlend w
      (ercNormalizeProp (ercProposal w rc target eps_rc n) n) damping n).sum = 1 :=
    ercBlend_sum _ _ _ _ hlen
      (ercNormalizeProp_length _ _ (ercProposal_length w rc target eps_rc n))
      hsum (ercNormalizeProp_sum _ _ hn)
  rw [ercRenormalize_of_sum_one hblendsum]
  exact ⟨ercBlend_nonneg _ _ _ _ hd0 hd1 hw
    (ercNormalizeProp_nonneg _ _ (ercProposal_nonneg w rc target eps_rc n)),
    hblendsum⟩

/-! ### Claim theorems -/

/-- C1: in ES mode the risk-measure computation returns the `(N+1)`-vector
obtained by averaging the loss rows of the scenarios ranked `q`-th through
`(M-1)`-th in ascending portfolio-loss order — where per-asset loss is
`1 - prod (1+r)`, portfolio loss is its dot product with the weights, the
index permutation sorts portfolio losses ascending, and
`q = floor((1-alpha/100)*M)` is clamped to `[0, M-1]` — then scaling each of
the first `N` entries by its weight and leaving the portfolio entry
unscaled. -/
theorem claim_C1_es_mode (sims : List Mat) (w : Row) (alpha : ℕ) :
    (sortedIndices (portfolioLosses sims w)).Perm (List.range sims.length)
    ∧ List.Sorted (· ≤ ·) ((sortedIndices (portfolioLosses sims w)).map
        (fun i => (portfolioLosses sims w).getD i 0))
    ∧ quantileIndex alpha sims.length ≤ sims.length - 1
    ∧ computePortfolioRiskMeasures sims w alpha .ES = esSpecResult sims w alpha := by
  refine ⟨?_, sortedIndices_sorted _, quantileIndex_le _ _, es_code_eq_spec sims w alpha⟩
  have h := sortedIndices_perm (portfolioLosses sims w)
  rwa [portfolioLosses_length] at h

/-- C2: in VaR mode the risk-measure computation returns the loss row of the
scenario at the quantile index of the ascending portfolio-loss order, asset
entries scaled by their weights and the portfolio entry that scenario's raw
loss; for `alpha = 5` and `M = 1000` the quantile index is `950` and the
951st-smallest portfolio loss (1-indexed) is returned as the portfolio
VaR. -/
theorem claim_C2_var_mode (sims : List Mat) (w : Row) (alpha : ℕ) :
    computePortfolioRiskMeasures sims w alpha .VaR = varSpecResult sims w alpha
    ∧ quantileIndex 5 1000 = 950
    ∧ (sims.length = 1000 →
        (computePortfolioRiskMeasures sims w 5 .VaR).getD w.length 0 =
          ((portfolioLosses sims w).mergeSort qle).getD 950 0) := by
  refine ⟨var_code_eq_spec sims w alpha, by norm_num [quantileIndex]; try decide,
    fun h1000 => ?_⟩
  have h := var_portfolio_entry sims w 5 (by omega)
  rwa [show quantileIndex 5 sims.length = 950 by
    rw [h1000]; norm_num [quantileIndex]; try decide] at h

/-- Witness for C2 at a concrete 1000-scenario set. -/
theorem claim_C2_var_mode_witness :
    (computePortfolioRiskMeasures (List.replicate 1000 [[(0 : ℚ)]]) [1] 5 .VaR).getD
        [(1 : ℚ)].length 0 =
      ((portfolioLosses (List.replicate 1000 [[(0 : ℚ)]]) [1]).mergeSort qle).getD
        950 0 :=
  (claim_C2_var_mode (List.replicate 1000 [[(0 : ℚ)]]) [1] 5).2.2
    (by rw [List.length_replicate])

/-- C8 counterexample: with `alpha = 5` and a concrete set of 20 scenarios
(19 flat paths and one total-loss path, weights `[1]`) the returned
portfolio ES is the single largest portfolio loss `1`, not the mean `1/2` of
the portfolio losses ranked 19th and 20th in ascending order. -/
theorem claim_C8_counterexample :
    (computePortfolioRiskMeasures
          (List.replicate 19 [[(0 : ℚ)]] ++ [[[(-1 : ℚ)]]]) [1] 5 .ES).getD 1 0 ≠
      (((portfolioLosses (List.replicate 19 [[(0 : ℚ)]] ++ [[[(-1 : ℚ)]]])
            [1]).mergeSort qle).getD 18 0 +
        ((portfolioLosses (List.replicate 19 [[(0 : ℚ)]] ++ [[[(-1 : ℚ)]]])
            [1]).mergeSort qle).getD 19 0) / 2 := by
  have hM : (List.replicate 19 [[(0 : ℚ)]] ++ [[[(-1 : ℚ)]]]).length = 20 := by simp
  have hpl : portfolioLosses (List.replicate 19 [[(0 : ℚ)]] ++ [[[(-1 : ℚ)]]]) [1] =
      List.replicate 19 (0 : ℚ) ++ [1] := by
    simp [portfolioLosses, riskMeasureMatrix, riskRow, assetLosses, dotQ,
      List.range_succ]
  have hsorted : List.Sorted (· ≤ ·) (List.replicate 19 (0 : ℚ) ++ [1]) := by
    rw [List.Sorted, List.pairwise_append]
    refine ⟨?_, by simp, ?_⟩
    · rw [List.pairwise_replicate]
      exact Or.inr le_rfl
    · intro a ha b hb
      rw [List.eq_of_mem_replicate ha]
      rw [List.mem_singleton] at hb
      rw [hb]
      norm_num
  have hms : (portfolioLosses (List.replicate 19 [[(0 : ℚ)]] ++ [[[(-1 : ℚ)]]])
      [1]).mergeSort qle = List.replicate 19 (0 : ℚ) ++ [1] := by
    rw [hpl]; exact mergeSort_qle_eq_self hsorted
  have h19 : (List.replicate 19 (0 : ℚ) ++ [1]).getD 19 0 = 1 := by
    rw [List.getD_append_right _ _ _ _ (by simp)]
    simp
  have h18 : (List.replicate 19 (0 : ℚ) ++ [1]).getD 18 0 = 0 := by
    rw [List.getD_append _ _ _ 18 (by simp)]
    rw [List.getD_eq_getElem _ _ (by simp)]
    simp
  have hes := es_portfolio_entry_last
    (List.replicate 19 [[(0 : ℚ)]] ++ [[[(-1 : ℚ)]]]) [1] 5 (by omega)
    (by rw [hM]; norm_num [quantileIndex]; try decide)
  rw [hM] at hes
  rw [hms] at hes
  have hlen1 : [(1 : ℚ)].length = 1 := rfl
  rw [hlen1] at hes
  rw [hms, h18, h19, hes]
  norm_num [h19]

/-- C8 amended: for `alpha = 5` and `M = 20` the quantile index is `19` and
the portfolio ES equals the single largest portfolio loss (the averaged tail
is index 19 alone); for `alpha = 5` and `M = 100` the quantile index is `95`,
so the averaged tail spans exactly 5 rows. -/
theorem claim_C8_amended (sims : List Mat) (w : Row) (h20 : sims.length = 20) :
    quantileIndex 5 20 = 19
    ∧ (computePortfolioRiskMeasures sims w 5 .ES).getD w.length 0 =
        ((portfolioLosses sims w).mergeSort qle).getD 19 0
    ∧ quantileIndex 5 100 = 95
    ∧ 100 - quantileIndex 5 100 = 5 := by
  refine ⟨by norm_num [quantileIndex]; try decide, ?_,
    by norm_num [quantileIndex]; try decide, by norm_num [quantileIndex]; try decide⟩
  have h := es_portfolio_entry_last sims w 5 (by omega)
    (by rw [h20]; norm_num [quantileIndex]; try decide)
  rwa [h20] at h

/-- Witness for C8's amended claim at a concrete 20-scenario set. -/
theorem claim_C8_amended_witness :
    (computePortfolioRiskMeasures (List.replicate 20 [[(0 : ℚ)]]) [1] 5 .ES).getD
        [(1 : ℚ)].length 0 =
      ((portfolioLosses (List.replicate 20 [[(0 : ℚ)]]) [1]).mergeSort qle).getD
        19 0 :=
  (claim_C8_amended (List.replicate 20 [[(0 : ℚ)]]) [1] (by rw [List.length_replicate])).2.1

/-- C3: in every non-converged ERC iteration the new weights are obtained by
the multiplicative proposal `w_i * (target / max(rc_i, eps_rc))` clamped at
`0`, renormalization to sum `1` (uniform fallback when the proposal sum is
`≤ 0`), a damped blend with the previous weights, and one more
renormalization. -/
theorem claim_C3_erc_update (w rc : Row) (target eps_rc damping : ℚ) (n : ℕ)
    (hlen : w.length = n) (hn : 1 ≤ n) (hsum : w.sum = 1) :
    ercUpdate w rc target eps_rc damping n =
      ercUpdateSpec w rc target eps_rc damping n := by
  have hWPlen : ((List.range n).map (fun i =>
      max 0 (w.getD i 0 * (target / max (rc.getD i 0) eps_rc)))).length = n := by
    simp
  have hb : (ercBlend w (ercNormalizeProp ((List.range n).map (fun i =>
      max 0 (w.getD i 0 * (target / max (rc.getD i 0) eps_rc)))) n) damping n).sum = 1 :=
    ercBlend_sum _ _ _ _ hlen (ercNormalizeProp_length _ _ hWPlen) hsum
      (ercNormalizeProp_sum _ _ hn)
  have key : ercUpdateSpec w rc target eps_rc damping n =
      (ercBlend w (ercNormalizeProp ((List.range n).map (fun i =>
        max 0 (w.getD i 0 * (target / max (rc.getD i 0) eps_rc)))) n) damping n).map
        (· / (ercBlend w (ercNormalizeProp ((List.range n).map (fun i =>
          max 0 (w.getD i 0 * (target / max (rc.getD i 0) eps_rc)))) n) damping n).sum) :=
    rfl
  rw [key, hb]
  simp only [div_one, List.map_id']
  unfold ercUpdate
  rw [ercProposal_eq_max]
  exact ercRenormalize_of_sum_one hb

/-- Witness for C3 at a concrete one-asset state. -/
theorem claim_C3_erc_update_witness :
    ercUpdate [(1 : ℚ)] [(1 : ℚ)] 1 1 (1 / 2) 1 =
      ercUpdateSpec [(1 : ℚ)] [(1 : ℚ)] 1 1 (1 / 2) 1 :=
  claim_C3_erc_update [(1 : ℚ)] [(1 : ℚ)] 1 1 (1 / 2) 1 rfl (le_refl 1) (by simp)

/-- C6: validated stored weights (after a successful `setWeights`), the
uniform initial weights, and the weights produced by every ERC iteration's
renormalization all have non-negative entries and sum to `1` within
tolerance `1e-6` (the renormalized sums are exactly `1`). -/
theorem claim_C6_weight_invariants :
    (∀ (t : List String) (cur v : Row),
        (setWeights t cur v).2 = none →
          (∀ x ∈ (setWeights t cur v).1, 0 ≤ x)
          ∧ |((setWeights t cur v).1).sum - 1| ≤ 1 / 1000000)
    ∧ (∀ n : ℕ, 1 ≤ n →
          (∀ x ∈ initialWeights n, 0 ≤ x) ∧ (initialWeights n).sum = 1)
    ∧ (∀ (w rc : Row) (target eps_rc damping : ℚ) (n : ℕ),
          w.length = n → 1 ≤ n → (∀ x ∈ w, 0 ≤ x) → w.sum = 1 →
          0 ≤ damping → damping ≤ 1 →
            (∀ x ∈ ercUpdate w rc target eps_rc damping n, 0 ≤ x)
            ∧ (ercUpdate w rc target eps_rc damping n).sum = 1) := by
  refine ⟨?_, ?_, ?_⟩
  · intro t cur v h
    simp only [setWeights] at h ⊢
    split_ifs at h ⊢ with h1 h2 h3
    refine ⟨?_, ?_⟩
    · intro x hx
      by_contra hneg
      push_neg at hneg
      exact h2 (List.any_eq_true.mpr ⟨x, hx, by simpa using hneg⟩)
    · simpa using not_lt.mp h3
  · intro n hn
    refine ⟨?_, ?_⟩
    · intro x hx
      rw [initialWeights] at hx
      rw [List.eq_of_mem_replicate hx]
      exact one_div_nonneg.mpr (Nat.cast_nonneg n)
    · rw [initialWeights, List.sum_replicate, nsmul_eq_mul, mul_one_div, div_self]
      have hne : n ≠ 0 := by omega
      exact_mod_cast hne
  · intro w rc target eps_rc damping n hlen hn hw hsum hd0 hd1
    exact ercUpdate_nonneg_sum w rc target eps_rc damping n hlen hn hw hsum hd0 hd1

/-- Witness for C6 at concrete inputs for all three conjuncts. -/
theorem claim_C6_weight_invariants_witness :
    ((∀ x ∈ (setWeights ["A"] [(1 : ℚ)] [(1 : ℚ)]).1, 0 ≤ x)
      ∧ |((setWeights ["A"] [(1 : ℚ)] [(1 : ℚ)]).1).sum - 1| ≤ 1 / 1000000)
    ∧ ((∀ x ∈ initialWeights 2, 0 ≤ x) ∧ (initialWeights 2).sum = 1)
    ∧ ((∀ x ∈ ercUpdate [(1 : ℚ)] [(1 : ℚ)] 1 1 (1 / 2) 1, 0 ≤ x)
      ∧ (ercUpdate [(1 : ℚ)] [(1 : ℚ)] 1 1 (1 / 2) 1).sum = 1) :=
  ⟨claim_C6_weight_invariants.1 ["A"] [(1 : ℚ)] [(1 : ℚ)]
      (by norm_num [setWeights, List.any_cons, List.any_nil]),
   claim_C6_weight_invariants.2.1 2 (by norm_num),
   claim_C6_weight_invariants.2.2 [(1 : ℚ)] [(1 : ℚ)] 1 1 (1 / 2) 1 rfl (le_refl 1)
      (by simp) (by simp) (by norm_num) (by norm_num)⟩

/-- C9: `setWeights` fails exactly when the length disagrees with the
available tickers, an entry is negative, or the sum differs from `1` by more
than `1e-6`; on failure the stored weights are unchanged, on success they
become the candidate vector. -/
theorem claim_C9_set_weights (t : List String) (cur v : Row) :
    ((setWeights t cur v).2 ≠ none ↔
      (v.length ≠ t.length ∨ (∃ x ∈ v, x < 0) ∨ 1 / 1000000 < |v.sum - 1|))
    ∧ ((setWeights t cur v).2 ≠ none → (setWeights t cur v).1 = cur)
    ∧ ((setWeights t cur v).2 = none → (setWeights t cur v).1 = v) := by
  refine ⟨?_, ?_, ?_⟩
  · simp only [setWeights]
    split_ifs with h1 h2 h3
    · exact ⟨fun _ => Or.inl h1, fun _ => by simp⟩
    · simp only [List.any_eq_true, decide_eq_true_eq] at h2
      exact ⟨fun _ => Or.inr (Or.inl h2), fun _ => by simp⟩
    · exact ⟨fun _ => Or.inr (Or.inr h3), fun _ => by simp⟩
    · simp only [List.any_eq_true, decide_eq_true_eq] at h2
      constructor
      · intro hc
        exact absurd rfl hc
      · intro hor
        rcases hor with h | h | h
        · exact absurd h h1
        · exact absurd h h2
        · exact absurd h h3
  · simp only [setWeights]
    split_ifs <;> intro h <;> first | rfl | exact absurd rfl h
  · simp only [setWeights]
    split_ifs <;> intro h <;> first | rfl | exact h.elim

/-- Witness for C9: a 3-element vector on a 2-asset portfolio fails and
leaves the stored weights unchanged. -/
theorem claim_C9_set_weights_witness :
    (setWeights ["A", "B"] [(1 : ℚ) / 2, 1 / 2] [(1 : ℚ) / 3, 1 / 3, 1 / 3]).1 =
      [(1 : ℚ) / 2, 1 / 2] :=
  (claim_C9_set_weights ["A", "B"] [(1 : ℚ) / 2, 1 / 2] [(1 : ℚ) / 3, 1 / 3, 1 / 3]).2.1
    ((claim_C9_set_weights ["A", "B"] _ _).1.mpr (Or.inl (by simp)))

theorem runSimulationLoop_ok (st0 : Engine) (method : SimMethod) (p1 p2 : ℚ)
    (vd : ℕ → ℕ → ℕ) (ld : ℕ → List ℕ) (sd : ℕ → List (ℕ × ℕ))
    (hm : method ≠ .unknown) (hsel : st0.selectedDataReturns ≠ []) :
    ∀ (is : List ℕ) (acc : List Mat),
      (runSimulationLoop st0 method p1 p2 vd ld sd is acc).2 = none := by
  intro is
  induction is with
  | nil => intro acc; rfl
  | cons i rest ih =>
    intro acc
    cases method with
    | vanilla =>
      simp only [runSimulationLoop, singleSimDispatch, runSingleSimulationVanilla,
        if_neg hsel]
      exact ih _
    | lambdaBias =>
      simp only [runSimulationLoop, singleSimDispatch, runSingleSimulation,
        if_neg hsel]
      exact ih _
    | stationary =>
      simp only [runSimulationLoop, singleSimDispatch, runSingleSimulationStationary,
        if_neg hsel]
      exact ih _
    | unknown => exact absurd rfl hm

theorem runSimulationLoop_err (st0 : Engine) (method : SimMethod) (p1 p2 : ℚ)
    (vd : ℕ → ℕ → ℕ) (ld : ℕ → List ℕ) (sd : ℕ → List (ℕ × ℕ))
    (hbad : method = .unknown ∨ st0.selectedDataReturns = []) :
    ∀ (is : List ℕ) (acc : List Mat),
      (runSimulationLoop st0 method p1 p2 vd ld sd is acc).1.simulatedDataReturns =
        acc.reverse := by
  intro is acc
  cases is with
  | nil => rfl
  | cons i rest =>
    rcases hbad with h | h
    · subst h; rfl
    · cases method with
      | vanilla =>
        simp only [runSimulationLoop, singleSimDispatch, runSingleSimulationVanilla,
          if_pos h]
      | lambdaBias =>
        simp only [runSimulationLoop, singleSimDispatch, runSingleSimulation,
          if_pos h]
      | stationary =>
        simp only [runSimulationLoop, singleSimDispatch, runSingleSimulationStationary,
          if_pos h]
      | unknown => rfl

/-- C10: `runSimulation` clears the stored scenario set before generating;
when the call fails (unknown method, or no category selected so every policy
aborts), the engine is left holding an empty scenario set, not the previous
one. -/
theorem claim_C10_failed_run_clears (st : Engine) (method : SimMethod)
    (p1 p2 : ℚ) (vd : ℕ → ℕ → ℕ) (ld : ℕ → List ℕ) (sd : ℕ → List (ℕ × ℕ))
    (hfail : (runSimulation st method p1 p2 vd ld sd).2.isSome = true) :
    (runSimulation st method p1 p2 vd ld sd).1.simulatedDataReturns = [] := by
  by_cases hm : method = .unknown ∨ st.selectedDataReturns = []
  · have h := runSimulationLoop_err { st with simulatedDataReturns := [] }
      method p1 p2 vd ld sd hm (List.range st.nSimulations) []
    simpa [runSimulation] using h
  · push_neg at hm
    have h := runSimulationLoop_ok { st with simulatedDataReturns := [] }
      method p1 p2 vd ld sd hm.1 hm.2 (List.range st.nSimulations) []
    rw [runSimulation] at hfail
    rw [h] at hfail
    simp at hfail

/-- Witness for C10: an engine holding one previous scenario matrix, run
with an out-of-enum method, errors and is left with an empty set. -/
theorem claim_C10_failed_run_clears_witness :
    (runSimulation ⟨[[1]], [1], ["A"], [[[2]]], 1, 1, 1, 5⟩ .unknown 0 0
        (fun _ _ => 0) (fun _ => []) (fun _ => [])).1.simulatedDataReturns = [] :=
  claim_C10_failed_run_clears _ _ _ _ _ _ _ (by rfl)

/-- C4: the vanilla policy's start distribution
`uniform_int_distribution(0, rows - blockSize - 1)` is uniform only on the
range `[0, T-b-1]`: the start `s = T-b` claimed to have equal positive
probability is never drawn (probability `0`), so the last block of history
is unreachable — an off-by-one against the claimed inclusive range
`[0, T-b]`. -/
theorem claim_C4_vanilla_start_range (rows b : ℕ) (hb : 1 ≤ b) (hlt : b < rows) :
    vanillaStartProb rows b (rows - b) = 0
    ∧ (∀ s, s < rows - b → vanillaStartProb rows b s = 1 / ((rows - b : ℕ) : ℚ)) := by
  constructor
  · rw [vanillaStartProb, if_neg (lt_irrefl _)]
  · intro s hs
    rw [vanillaStartProb, if_pos hs]

/-- Witness for C4 at `rows = 2, b = 1`: the claimed-valid start `s = 1`
has probability `0`. -/
theorem claim_C4_vanilla_start_range_witness :
    vanillaStartProb 2 1 (2 - 1) = 0
    ∧ (∀ s, s < 2 - 1 → vanillaStartProb 2 1 s = 1 / ((2 - 1 : ℕ) : ℚ)) :=
  claim_C4_vanilla_start_range 2 1 (by norm_num) (by norm_num)

/-- C5 counterexample: with return matrix `[[1/10], [-1/10]]`, weights `[1]`,
block size `1` and `lambda = 1`, the start `t = 0` has non-negative one-step
portfolio return and start `t = 1` has strictly negative return, yet the
sampling probability of `t = 0` is exactly `0` — not nonzero as claimed. -/
theorem claim_C5_counterexample :
    0 ≤ portReturnAt [[(1 : ℚ) / 10], [-(1 : ℚ) / 10]] [1] 0
    ∧ portReturnAt [[(1 : ℚ) / 10], [-(1 : ℚ) / 10]] [1] 1 < 0
    ∧ lambdaProb [[(1 : ℚ) / 10], [-(1 : ℚ) / 10]] [1] 1 1 0 = 0 := by
  refine ⟨by norm_num [portReturnAt, dotQ], by norm_num [portReturnAt, dotQ], ?_⟩
  rw [lambdaProb]
  have h : lambdaScore [[(1 : ℚ) / 10], [-(1 : ℚ) / 10]] [1] 1 0 = 0 := by
    rw [lambdaScore]
    have hp : portReturnAt [[(1 : ℚ) / 10], [-(1 : ℚ) / 10]] [1] 0 = 1 / 10 := by
      norm_num [portReturnAt, dotQ]
    rw [hp]
    rw [max_eq_left (by norm_num : -((1 : ℚ) / 10) ≤ 0)]
    norm_num
  rw [h, zero_div]

/-- C5 amended: with `lambda = 1` every block start whose one-step portfolio
return is non-negative gets sampling score `0` and hence sampling
probability exactly `0` — only loss starts can be drawn. -/
theorem claim_C5_amended (src : Mat) (w : Row) (b t : ℕ)
    (ht : t < lambdaNumStarts src b)
    (hpos : 0 ≤ portReturnAt src w t)
    (hloss : ∃ u, u < lambdaNumStarts src b ∧ portReturnAt src w u < 0) :
    lambdaProb src w 1 b t = 0 := by
  rw [lambdaProb]
  have h : lambdaScore src w 1 t = 0 := by
    rw [lambdaScore]
    rw [max_eq_left (neg_nonpos.mpr hpos)]
    norm_num
  rw [h, zero_div]

/-- Witness for C5's amended claim at the counterexample input. -/
theorem claim_C5_amended_witness :
    lambdaProb [[(1 : ℚ) / 5], [-(1 : ℚ) / 5]] [1] 1 1 0 = 0 :=
  claim_C5_amended [[(1 : ℚ) / 5], [-(1 : ℚ) / 5]] [1] 1 0
    (by norm_num [lambdaNumStarts])
    (by norm_num [portReturnAt, dotQ])
    ⟨1, by norm_num [lambdaNumStarts], by norm_num [portReturnAt, dotQ]⟩

/-! ### Shape lemmas for the three fill loops -/

theorem filterMap_window_length (g : ℕ → Row) (b a n : ℕ) :
    ((List.range b).filterMap (fun block =>
      if a + block < n then some (g block) else none)).length = min b (n - a) := by
  induction b with
  | zero => simp
  | succ b ih =>
    rw [List.range_succ, List.filterMap_append, List.length_append, ih]
    by_cases hc : a + b < n
    · simp only [List.filterMap_cons, hc, if_pos, List.filterMap_nil,
        List.length_cons, List.length_nil]
      omega
    · simp only [List.filterMap_cons, hc, if_neg, not_false_iff,
        List.filterMap_nil, List.length_nil]
      omega

theorem sum_min_blocks (b : ℕ) : ∀ (m n : ℕ),
    ((List.range m).map (fun row => min b (n - row * b))).sum = min n (m * b) := by
  intro m
  induction m with
  | zero => intro n; simp
  | succ m ih =>
    intro n
    rw [List.range_succ, List.map_append, List.sum_append, ih]
    simp only [List.map_cons, List.map_nil, List.sum_cons, List.sum_nil]
    have h1 : (m + 1) * b = m * b + b := by ring
    rw [h1]
    generalize m * b = A
    omega

/-- The vanilla copy loop writes exactly `nSamples` rows. -/
theorem vanillaFill_length (src : Mat) (b nSamples : ℕ) (draws : ℕ → ℕ)
    (hb : 1 ≤ b) :
    (vanillaFill src b nSamples draws).length = nSamples := by
  rw [vanillaFill, List.length_flatMap]
  have hcong : List.map (List.length ∘ fun row => (List.range b).filterMap
      (fun block => if row * b + block < nSamples then
        some (src.getD (draws row + block) []) else none))
      (List.range (nSamples / b + 1)) =
      (List.range (nSamples / b + 1)).map (fun row => min b (nSamples - row * b)) := by
    apply List.map_congr_left
    intro row _
    have h := filterMap_window_length (fun block => src.getD (draws row + block) [])
      b (row * b) nSamples
    simpa using h
  rw [hcong, sum_min_blocks]
  have h1 : (nSamples / b + 1) * b = b * (nSamples / b) + b := by ring
  rw [h1]
  have h2 := Nat.div_add_mod nSamples b
  have h3 := Nat.mod_lt nSamples (show 0 < b by omega)
  generalize hA : b * (nSamples / b) = A at h2 ⊢
  generalize hB : nSamples % b = B at h2 h3
  omega

/-- Every row the vanilla loop writes is a source row, hence has `N`
columns. -/
theorem vanillaFill_cols (src : Mat) (b nSamples : ℕ) (draws : ℕ → ℕ) (N : ℕ)
    (hsrc : ∀ r ∈ src, r.length = N)
    (hdraws : ∀ k, draws k + b ≤ src.length) :
    ∀ r ∈ vanillaFill src b nSamples draws, r.length = N := by
  intro r hr
  rw [vanillaFill, List.mem_flatMap] at hr
  obtain ⟨row, _, hr⟩ := hr
  rw [List.mem_filterMap] at hr
  obtain ⟨block, hblock, hif⟩ := hr
  rw [List.mem_range] at hblock
  by_cases hc : row * b + block < nSamples
  · rw [if_pos hc, Option.some_inj] at hif
    have hidx : draws row + block < src.length := by
      have h := hdraws row
      omega
    subst hif
    rw [List.getD_eq_getElem _ _ hidx]
    exact hsrc _ (List.getElem_mem hidx)
  · rw [if_neg hc] at hif
    exact Option.noConfusion hif

/-- With `b ≥ 1` and enough draws, the badness-weighted fill loop produces
exactly `need` rows. -/
theorem fillFixed_length (src : Mat) (b : ℕ) (hb : 1 ≤ b) :
    ∀ (draws : List ℕ) (need : ℕ), need ≤ draws.length →
      (fillFixed src b need draws).length = need := by
  intro draws
  induction draws with
  | nil =>
    intro need h
    simp only [List.length_nil, Nat.le_zero] at h
    subst h
    rfl
  | cons idx rest ih =>
    intro need h
    simp only [fillFixed]
    by_cases h0 : need = 0
    · rw [if_pos h0, h0]
      rfl
    · rw [if_neg h0]
      rw [List.length_append, List.length_map, List.length_range]
      have hlen : need - min b need ≤ rest.length := by
        simp only [List.length_cons] at h
        omega
      rw [ih _ hlen]
      omega

theorem fillFixed_cols (src : Mat) (b : ℕ) (N : ℕ)
    (hsrc : ∀ r ∈ src, r.length = N) :
    ∀ (draws : List ℕ) (need : ℕ), (∀ i ∈ draws, i + b ≤ src.length) →
      ∀ r ∈ fillFixed src b need draws, r.length = N := by
  intro draws
  induction draws with
  | nil =>
    intro need _ r hr
    simp [fillFixed] at hr
  | cons idx rest ih =>
    intro need hdraws r hr
    simp only [fillFixed] at hr
    by_cases h0 : need = 0
    · rw [if_pos h0] at hr
      simp at hr
    · rw [if_neg h0] at hr
      rw [List.mem_append] at hr
      rcases hr with hr | hr
      · rw [List.mem_map] at hr
        obtain ⟨k, hk, rfl⟩ := hr
        rw [List.mem_range] at hk
        have hidx : idx + k < src.length := by
          have h := hdraws idx (List.mem_cons_self idx rest)
          omega
        rw [List.getD_eq_getElem _ _ hidx]
        exact hsrc _ (List.getElem_mem hidx)
      · exact ih _ (fun i hi => hdraws i (List.mem_cons_of_mem _ hi)) r hr

/-- With enough draws the stationary fill loop produces exactly `need` rows,
for every sequence of geometric block-length draws. -/
theorem fillStationary_length (src : Mat) (nSamples : ℕ) :
    ∀ (draws : List (ℕ × ℕ)) (need : ℕ), need ≤ nSamples → need ≤ draws.length →
      (fillStationary src nSamples need draws).length = need := by
  intro draws
  induction draws with
  | nil =>
    intro need _ h
    simp only [List.length_nil, Nat.le_zero] at h
    subst h
    rfl
  | cons d rest ih =>
    intro need hns h
    obtain ⟨idx0, g⟩ := d
    simp only [fillStationary]
    by_cases h0 : need = 0
    · rw [if_pos h0, h0]
      rfl
    · rw [if_neg h0]
      rw [List.length_append, List.length_map, List.length_range]
      have hlen : need - min (min (g + 1) nSamples) need ≤ rest.length := by
        simp only [List.length_cons] at h
        omega
      rw [ih _ (by omega) hlen]
      omega

theorem fillStationary_cols (src : Mat) (nSamples : ℕ) (N : ℕ)
    (hsrc : ∀ r ∈ src, r.length = N) (hne : src ≠ []) :
    ∀ (draws : List (ℕ × ℕ)) (need : ℕ),
      ∀ r ∈ fillStationary src nSamples need draws, r.length = N := by
  intro draws
  induction draws with
  | nil =>
    intro need r hr
    simp [fillStationary] at hr
  | cons d rest ih =>
    intro need r hr
    obtain ⟨idx0, g⟩ := d
    simp only [fillStationary] at hr
    by_cases h0 : need = 0
    · rw [if_pos h0] at hr
      simp at hr
    · rw [if_neg h0] at hr
      rw [List.mem_append] at hr
      rcases hr with hr | hr
      · rw [List.mem_map] at hr
        obtain ⟨k, _, rfl⟩ := hr
        have hidx : (idx0 + k) % src.length < src.length :=
          Nat.mod_lt _ (List.length_pos.mpr hne)
        rw [List.getD_eq_getElem _ _ hidx]
        exact hsrc _ (List.getElem_mem hidx)
      · exact ih _ r hr

/-- C7: all three simulation policies emit a matrix of exactly `nSamples`
rows and `N` columns; boundary-crossing blocks are truncated, never
overrunning `nSamples` — for the stationary policy regardless of the
geometric block-length draws. Enough pseudo-random draws are supplied, and
the drawn start indices are in the range the code's distributions produce. -/
theorem claim_C7_simulation_shapes (src : Mat) (N : ℕ)
    (hsrc : ∀ r ∈ src, r.length = N) :
    (∀ (b nSamples : ℕ) (draws : ℕ → ℕ), 1 ≤ b →
        (∀ k, draws k + b ≤ src.length) →
        (vanillaFill src b nSamples draws).length = nSamples
        ∧ ∀ r ∈ vanillaFill src b nSamples draws, r.length = N)
    ∧ (∀ (b need : ℕ) (draws : List ℕ), 1 ≤ b → need ≤ draws.length →
        (∀ i ∈ draws, i + b ≤ src.length) →
        (fillFixed src b need draws).length = need
        ∧ ∀ r ∈ fillFixed src b need draws, r.length = N)
    ∧ (∀ (nSamples : ℕ) (draws : List (ℕ × ℕ)), src ≠ [] →
        nSamples ≤ draws.length →
        (fillStationary src nSamples nSamples draws).length = nSamples
        ∧ ∀ r ∈ fillStationary src nSamples nSamples draws, r.length = N) := by
  refine ⟨?_, ?_, ?_⟩
  · intro b nSamples draws hb hdraws
    exact ⟨vanillaFill_length src b nSamples draws hb,
      vanillaFill_cols src b nSamples draws N hsrc hdraws⟩
  · intro b need draws hb hneed hdraws
    exact ⟨fillFixed_length src b hb draws need hneed,
      fillFixed_cols src b N hsrc draws need hdraws⟩
  · intro nSamples draws hne hdraws
    exact ⟨fillStationary_length src nSamples draws nSamples le_rfl hdraws,
      fillStationary_cols src nSamples N hsrc hne draws nSamples⟩

/-- Witness for C7 on a concrete two-row, one-asset return matrix. -/
theorem claim_C7_simulation_shapes_witness :
    ((vanillaFill [[(0 : ℚ)], [1 / 2]] 1 2 (fun _ => 0)).length = 2
      ∧ ∀ r ∈ vanillaFill [[(0 : ℚ)], [1 / 2]] 1 2 (fun _ => 0), r.length = 1)
    ∧ ((fillFixed [[(0 : ℚ)], [1 / 2]] 1 2 [0, 0]).length = 2
      ∧ ∀ r ∈ fillFixed [[(0 : ℚ)], [1 / 2]] 1 2 [0, 0], r.length = 1)
    ∧ ((fillStationary [[(0 : ℚ)], [1 / 2]] 2 2 [(0, 0), (0, 0)]).length = 2
      ∧ ∀ r ∈ fillStationary [[(0 : ℚ)], [1 / 2]] 2 2 [(0, 0), (0, 0)],
          r.length = 1) :=
  ⟨(claim_C7_simulation_shapes [[(0 : ℚ)], [1 / 2]] 1 (by simp)).1 1 2 (fun _ => 0)
      (by norm_num) (fun k => by simp),
   (claim_C7_simulation_shapes [[(0 : ℚ)], [1 / 2]] 1 (by simp)).2.1 1 2 [0, 0]
      (by norm_num) (by simp) (by intro i hi; simp at hi; subst hi; simp),
   (claim_C7_simulation_shapes [[(0 : ℚ)], [1 / 2]] 1 (by simp)).2.2 2 [(0, 0), (0, 0)]
      (by simp) (by simp)⟩

end QuantDream
